import Mathlib

/-!
# Verification of the Latex-AI-Writing-Assistant core

Shallow embedding of the document-store operations
(`apps/web/app/api/chat/route.ts`, `useDocumentStore`) and of the
selection-transform / preview-apply pipeline (`runTransform`,
`applyPreview`, `findNearestRange` in the selection-toolbar component).

Strings are modelled as `List Char` (one element per code point); JS
string primitives (`slice`, `indexOf`, `trim`, `split(/\s+/)`,
`String.prototype.replace`) are given executable translations below.
-/

namespace LatexAssistant

/-- A JS string, modelled as its list of characters. -/
abbrev Str := List Char

/-- The character class matched by the JS regexp `\s` (WhiteSpace ∪
LineTerminator productions). -/
def isJsWs (c : Char) : Bool :=
  c = ' ' || c = '\t' || c = '\n' || c = '\r' ||
  c = Char.ofNat 0x0b || c = Char.ofNat 0x0c ||
  c = Char.ofNat 0xa0 || c = Char.ofNat 0x1680 ||
  (Char.ofNat 0x2000 ≤ c && c ≤ Char.ofNat 0x200a) ||
  c = Char.ofNat 0x2028 || c = Char.ofNat 0x2029 ||
  c = Char.ofNat 0x202f || c = Char.ofNat 0x205f ||
  c = Char.ofNat 0x3000 || c = Char.ofNat 0xfeff

/-- JS `String.prototype.trim`: strip leading and trailing whitespace. -/
def jsTrim (s : Str) : Str :=
  ((s.dropWhile isJsWs).reverse.dropWhile isJsWs).reverse

/-- JS `s.slice(a, b)` for non-negative clamped arguments:
the characters of `s` in positions `[a, min b s.length)`. -/
def jsSlice (s : Str) (a b : Nat) : Str :=
  (s.drop a).take (b - a)

/-- JS `s.indexOf(pat)`: index of the first occurrence of `pat` in `s`
(`some 0` for the empty pattern), `none` when there is none. -/
def jsIndexOf (pat : Str) : Str → Option Nat
  | [] => if pat.isPrefixOf ([] : Str) then some 0 else none
  | c :: t =>
    if pat.isPrefixOf (c :: t) then some 0
    else (jsIndexOf pat t).map (· + 1)

/-- The `GetSubstitution` step of JS `String.prototype.replace` with a
string pattern and a string replacement and no capture groups: `$$`,
`$&`, `` $` `` and `$'` are substituted, everything else is literal. -/
def jsSubst (matched before after : Str) : Str → Str
  | [] => []
  | '$' :: '$' :: rest => '$' :: jsSubst matched before after rest
  | '$' :: '&' :: rest => matched ++ jsSubst matched before after rest
  | '$' :: '\'' :: rest => after ++ jsSubst matched before after rest
  | '$' :: c :: rest =>
    if c = Char.ofNat 96 then before ++ jsSubst matched before after rest
    else '$' :: c :: jsSubst matched before after rest
  | c :: rest => c :: jsSubst matched before after rest

/-- JS `content.replace(find, repl)` with string arguments, given the
index `i` of the first occurrence of `find`. -/
def jsReplaceAt (content find repl : Str) (i : Nat) : Str :=
  content.take i ++
    jsSubst find (content.take i) (content.drop (i + find.length)) repl ++
    content.drop (i + find.length)

/-- JS `s.split(/\s+/)` on a string with no leading whitespace: the
maximal runs of non-whitespace characters, in order. -/
def splitWsTokens : Str → List Str
  | [] => []
  | c :: t =>
    if isJsWs c then splitWsTokens t
    else (c :: t.takeWhile (fun d => !isJsWs d)) ::
      splitWsTokens (t.dropWhile (fun d => !isJsWs d))
termination_by s => s.length
decreasing_by
  · simp only [List.length_cons]; omega
  · simp only [List.length_cons]
    exact Nat.lt_succ_of_le (List.dropWhile_sublist _).length_le

/-- Matching of the regexp `tok₁\s+tok₂\s+…\s+tokₙ` (each `tokᵢ` a
regexp-escaped literal, as built in `findAndReplace`) at the head of
`cs`: returns the length of the match.  Because the tokens contain no
whitespace, the greedy `\s+` with backtracking is equivalent to
skipping each maximal whitespace run whole. -/
def matchToks : List Str → Str → Option Nat
  | [], _ => some 0
  | t :: rest, cs =>
    if t.isPrefixOf cs then
      match rest with
      | [] => some t.length
      | _ :: _ =>
        let cs' := cs.drop t.length
        let w := (cs'.takeWhile isJsWs).length
        if w = 0 then none
        else (matchToks rest (cs'.drop w)).map (fun n => t.length + w + n)
    else none

/-- Leftmost match of the token pattern in `cs`: the start index and
the length of the match, mirroring `regex.test`/`replace(regex, …)`. -/
def fuzzyFind (toks : List Str) : Str → Option (Nat × Nat)
  | [] => (matchToks toks []).map (fun n => (0, n))
  | c :: t =>
    match matchToks toks (c :: t) with
    | some n => some (0, n)
    | none => (fuzzyFind toks t).map (fun p => (p.1 + 1, p.2))

/-- The content-level part of `useDocumentStore.findAndReplace`
(route.ts lines 1158–1189): `some newContent` when a replacement is
made, `none` when the function returns `false` without mutating.
Tier 1 is JS `content.replace(find, replace)` (with `$`-substitution);
tier 2 replaces the leftmost match of the whitespace-tolerant token
regexp by `replace` verbatim (the code passes `() => replace`). -/
def findAndReplaceCore (content find repl : Str) : Option Str :=
  if find = [] then none
  else
    match jsIndexOf find content with
    | some i => some (jsReplaceAt content find repl i)
    | none =>
      if 16 ≤ (jsTrim find).length then
        let toks := splitWsTokens (jsTrim find)
        if 3 ≤ toks.length then
          match fuzzyFind toks content with
          | some (i, n) => some (content.take i ++ repl ++ content.drop (i + n))
          | none => none
        else none
      else none

/-- `findNearestRange` from the selection toolbar's `applyPreview`
(lines 1001–1017): windowed then global literal search for the
captured original text, returning the range `[from, to)` to replace. -/
def findNearestRange (source needle : Str) (start : Nat) : Option (Nat × Nat) :=
  if needle = [] then none
  else
    let windowStart := start - 2000
    let windowEnd := min source.length (start + 2000)
    match jsIndexOf needle (jsSlice source windowStart windowEnd) with
    | some li => some (windowStart + li, windowStart + li + needle.length)
    | none =>
      match jsIndexOf needle source with
      | some gi => some (gi, gi + needle.length)
      | none => none

/-- A transform preview's captured span and accumulated replacement
(fields `start`, `end`, `original`, `next` of the preview state; the
source field `end` is a Lean keyword, rendered `stop`). -/
structure Preview where
  start : Nat
  stop : Nat
  original : Str
  next : Str
deriving DecidableEq, Repr

/-- Outcome of an apply attempt. -/
inductive ApplyOutcome
  | applied
  | conflict
deriving DecidableEq, Repr

/-- `applyPreview` (lines 976–1040) on a ready preview, modelled at
the document level (the editor-view path, which exercises all four
tiers): returns the new document, the new cursor, and whether the
apply succeeded or was rejected.  Tier 1 replaces in place when the
captured offsets still match; tiers 2–3 are `findNearestRange`;
tier 4 is the store's `findAndReplace` (which leaves the cursor
unchanged).  On conflict the document is returned unchanged. -/
def applyPreview (doc : Str) (cursor : Nat) (p : Preview) :
    Str × Nat × ApplyOutcome :=
  if jsSlice doc p.start p.stop = p.original then
    (doc.take p.start ++ p.next ++ doc.drop p.stop,
     p.start + p.next.length, .applied)
  else
    match findNearestRange doc p.original p.start with
    | some r =>
      (doc.take r.1 ++ p.next ++ doc.drop r.2, r.1 + p.next.length, .applied)
    | none =>
      match findAndReplaceCore doc p.original p.next with
      | some newDoc => (newDoc, cursor, .applied)
      | none => (doc, cursor, .conflict)

/-- Outcome of the selection-validation step at the head of
`runTransform` (lines 823–827).  `rejectedEmptySelection` is the bare
`return` on a selection that is empty after trimming;
`rejectedTooLong` is the `toast.error("选中文本过长…")` path for a
selection longer than 4000 characters. -/
inductive TransformValidation
  | rejectedEmptySelection
  | rejectedTooLong
  | accepted
deriving DecidableEq, Repr

/-- The validation performed by `runTransform` on the captured range's
original text, in source order: emptiness first, then the 4000-character
ceiling on the untrimmed text. -/
def validateTransform (original : Str) : TransformValidation :=
  if jsTrim original = [] then .rejectedEmptySelection
  else if 4000 < original.length then .rejectedTooLong
  else .accepted

/-- The start of `runTransform` up to the first `setPreview` call:
when validation rejects, no preview state is created and no network
request is issued (`none`); otherwise the loading preview is created
from the captured range. -/
def runTransformStart (start stop : Nat) (original : Str) : Option Preview :=
  match validateTransform original with
  | .accepted => some ⟨start, stop, original, []⟩
  | _ => none

/-- `ProjectFile` (route.ts lines 573–580).  `type` ranges over
`"tex" | "image" | "folder"`; it is modelled as a string. -/
structure ProjectFile where
  id : String
  name : String
  type : String
  parentId : Option String
  content : Option Str
deriving DecidableEq, Repr

/-- `DocumentHistoryEntry` (route.ts lines 605–610). -/
structure DocumentHistoryEntry where
  id : String
  fileId : String
  createdAt : Nat
  content : Str
deriving DecidableEq, Repr

/-- The fields of the `useDocumentStore` state that the verified
operations read or write (route.ts lines 612–628; the remaining fields
are UI/compile bookkeeping untouched by these operations — zustand's
`set` merges partial updates, so an operation that does not mention a
field leaves it unchanged). -/
structure DocumentState where
  files : List ProjectFile
  activeFileId : String
  cursorPosition : Nat
  selectionRange : Option (Nat × Nat)
  historyEntries : List DocumentHistoryEntry
deriving DecidableEq, Repr

/-- `getActiveFile` (route.ts lines 923–927): the file with the active
id if it is not a folder, otherwise the first non-folder file. -/
def getActiveFile (st : DocumentState) : Option ProjectFile :=
  match st.files.find? (fun f => f.id == st.activeFileId) with
  | some f =>
    if f.type == "folder" then st.files.find? (fun g => g.type != "folder")
    else some f
  | none => st.files.find? (fun g => g.type != "folder")

/-- `addFile` (route.ts lines 948–958).  The fresh id produced by
`generateId()` is passed explicitly.  No validation of `parentId` is
performed by the source. -/
def addFile (st : DocumentState) (newId : String) (file : ProjectFile) :
    DocumentState :=
  { st with
    files := st.files ++ [{ file with id := newId }],
    activeFileId := newId }

/-- `addFolder` (route.ts lines 960–969).  No validation of `parentId`
is performed by the source. -/
def addFolder (st : DocumentState) (newId : String) (name : String)
    (parentId : Option String) : DocumentState :=
  { st with
    files := st.files ++
      [{ id := newId,
         name := if name.trim = "" then "新建文件夹" else name.trim,
         type := "folder", parentId := parentId, content := none }] }

/-- JS truthiness of `string | null`, used by `moveFile`'s
`if (nextParentId)` guard: `null` and the empty string are falsy. -/
def jsTruthyId : Option String → Bool
  | none => false
  | some s => s != ""

/-- `moveFile` (route.ts lines 971–988): no-op when the target is
missing or is a folder; when the new parent id is truthy it must exist
and be a folder, otherwise the move is ignored. -/
def moveFile (st : DocumentState) (id : String) (parentId : Option String) :
    DocumentState :=
  match st.files.find? (fun f => f.id == id) with
  | none => st
  | some target =>
    if target.type == "folder" then st
    else
      let commit : DocumentState :=
        { st with
          files := st.files.map (fun f =>
            if f.id == id then { f with parentId := parentId } else f) }
      if jsTruthyId parentId then
        match st.files.find? (fun f => some f.id == parentId) with
        | some parent => if parent.type == "folder" then commit else st
        | none => st
      else commit

/-- Does some file in `files` with id `p` have kind folder?  (Used by
the cascade collection; under unique ids this is the kind of the node
`p`.) -/
def folderIdIn (files : List ProjectFile) (p : String) : Bool :=
  files.any (fun g => g.id == p && g.type == "folder")

/-- One round of `collectFolderChildren` (route.ts lines 996–1003):
add every not-yet-collected file whose parent is a collected folder. -/
def deleteStep (files : List ProjectFile) (s : List String) : List String :=
  s ++ (files.filter (fun f =>
    !s.contains f.id &&
    (match f.parentId with
     | some p => s.contains p && folderIdIn files p
     | none => false))).map (·.id)

/-- Iterate `deleteStep` to its fixpoint.  The source's recursive
depth-first `collectFolderChildren` with a shared visited set computes
the least set containing the root and closed under taking children of
collected folders; `files.length` rounds suffice to reach it. -/
def deleteClosureAux (files : List ProjectFile) : Nat → List String → List String
  | 0, s => s
  | fuel + 1, s =>
    let s' := deleteStep files s
    if s' = s then s else deleteClosureAux files fuel s'

/-- The set `idsToDelete` of `deleteFile` (route.ts lines 995–1006):
the target's id, plus — when the target is a folder — every file
reachable from it through folder children. -/
def deleteSet (files : List ProjectFile) (target : ProjectFile) : List String :=
  if target.type == "folder" then
    deleteClosureAux files files.length [target.id]
  else [target.id]

/-- `deleteFile` (route.ts lines 990–1017): cascading delete, rejected
(no-op) when no non-folder file would remain. -/
def deleteFile (st : DocumentState) (id : String) : DocumentState :=
  match st.files.find? (fun f => f.id == id) with
  | none => st
  | some target =>
    let s := deleteSet st.files target
    let nextFiles := st.files.filter (fun f => !s.contains f.id)
    match nextFiles.filter (fun f => f.type != "folder") with
    | [] => st
    | g :: _ =>
      { st with
        files := nextFiles,
        activeFileId := if s.contains st.activeFileId then g.id
          else st.activeFileId }

/-- `saveHistoryEntry` (route.ts lines 1055–1068).  The fresh id and
`Date.now()` are passed explicitly.  Returns the id (or `null`) and
the updated state. -/
def saveHistoryEntry (st : DocumentState) (newId : String) (now : Nat) :
    Option String × DocumentState :=
  match getActiveFile st with
  | none => (none, st)
  | some f =>
    if f.type != "tex" then (none, st)
    else
      (some newId,
       { st with
         historyEntries :=
           (({ id := newId, fileId := f.id, createdAt := now,
               content := f.content.getD [] } : DocumentHistoryEntry) ::
             st.historyEntries).take 50 })

/-- `insertAtCursor` (route.ts lines 1122–1140): splice `text` in at
the cursor and advance the cursor past it.  Only `files` and
`cursorPosition` are written; in particular `selectionRange` is left
as it was. -/
def insertAtCursor (st : DocumentState) (text : Str) : DocumentState :=
  match getActiveFile st with
  | none => st
  | some f =>
    if f.type != "tex" then st
    else
      let content := f.content.getD []
      let newContent :=
        content.take st.cursorPosition ++ text ++ content.drop st.cursorPosition
      { st with
        files := st.files.map (fun g =>
          if g.id == f.id then { g with content := some newContent } else g),
        cursorPosition := st.cursorPosition + text.length }

/-- `replaceSelection` (route.ts lines 1142–1156): replace
`[start, end)` by `text` and put the cursor after it.  Only `files`
and `cursorPosition` are written. -/
def replaceSelection (st : DocumentState) (start stop : Nat) (text : Str) :
    DocumentState :=
  match getActiveFile st with
  | none => st
  | some f =>
    if f.type != "tex" then st
    else
      let content := f.content.getD []
      let newContent := content.take start ++ text ++ content.drop stop
      { st with
        files := st.files.map (fun g =>
          if g.id == f.id then { g with content := some newContent } else g),
        cursorPosition := start + text.length }

/-- `findAndReplace` at the store level (route.ts lines 1158–1189):
applies `findAndReplaceCore` to the active tex file's content. -/
def findAndReplace (st : DocumentState) (find repl : Str) :
    Bool × DocumentState :=
  match getActiveFile st with
  | none => (false, st)
  | some f =>
    if f.type != "tex" then (false, st)
    else
      match findAndReplaceCore (f.content.getD []) find repl with
      | none => (false, st)
      | some newContent =>
        (true,
         { st with
           files := st.files.map (fun g =>
             if g.id == f.id then { g with content := some newContent } else g) })

/-- A sequence of `saveHistoryEntry` calls, each with its generated id
and timestamp, applied left to right. -/
def saveHistorySeq (st : DocumentState) (calls : List (String × Nat)) :
    DocumentState :=
  calls.foldl (fun s c => (saveHistoryEntry s c.1 c.2).2) st

/-! ## Tree invariants -/

/-- The ids of the files of a tree. -/
def idsOf (files : List ProjectFile) : List String := files.map (·.id)

/-- Every non-null `parentId` references a file of kind folder. -/
def validParentsB (files : List ProjectFile) : Bool :=
  files.all (fun f =>
    match f.parentId with
    | none => true
    | some p => files.any (fun g => g.id == p && g.type == "folder"))

/-- `Anc files a b`: following `parentId` links upward from the node
with id `b` reaches the id `a` (strict ancestorship in the parent
graph). -/
inductive Anc (files : List ProjectFile) (a : String) : String → Prop
  | base {f : ProjectFile} :
      f ∈ files → f.parentId = some a → Anc files a f.id
  | step {f : ProjectFile} {p : String} :
      f ∈ files → f.parentId = some p → Anc files a p → Anc files a f.id

/-- The parent graph has no cycle: no id is its own strict ancestor. -/
def Acyclic (files : List ProjectFile) : Prop := ∀ x, ¬ Anc files x x

/-- The structural invariant of the file tree: unique ids, parent
references all valid folders, and no cycles. -/
def TreeInvariant (files : List ProjectFile) : Prop :=
  (idsOf files).Nodup ∧ validParentsB files = true ∧ Acyclic files

/-- The tree-mutating operations whose sequences claim C7 quantifies
over; each add carries the id produced by `generateId()`. -/
inductive TreeOp
  | addFileOp (newId : String) (file : ProjectFile)
  | addFolderOp (newId : String) (name : String) (parentId : Option String)
  | moveFileOp (id : String) (parentId : Option String)

/-- Interpretation of a tree operation on the store. -/
def applyTreeOp (st : DocumentState) : TreeOp → DocumentState
  | .addFileOp newId file => addFile st newId file
  | .addFolderOp newId name parentId => addFolder st newId name parentId
  | .moveFileOp id parentId => moveFile st id parentId

/-- Interpretation of a sequence of tree operations. -/
def applyTreeOps (st : DocumentState) (ops : List TreeOp) : DocumentState :=
  ops.foldl applyTreeOp st

/-! ## Properties of the search primitives -/

theorem jsIndexOf_eq_some (pat : Str) :
    ∀ (l : Str) (i : Nat), jsIndexOf pat l = some i →
      pat <+: l.drop i ∧ ∀ j < i, ¬ pat <+: l.drop j := by
  intro l
  induction l with
  | nil =>
    intro i h
    by_cases hp : pat.isPrefixOf ([] : Str)
    · simp only [jsIndexOf, hp, if_pos, Option.some.injEq] at h
      subst h
      exact ⟨by simpa using List.isPrefixOf_iff_prefix.1 hp,
        fun j hj => absurd hj (Nat.not_lt_zero j)⟩
    · simp [jsIndexOf, hp] at h
  | cons c t ih =>
    intro i h
    by_cases hp : pat.isPrefixOf (c :: t)
    · simp only [jsIndexOf, hp, if_pos, Option.some.injEq] at h
      subst h
      exact ⟨by simpa using List.isPrefixOf_iff_prefix.1 hp,
        fun j hj => absurd hj (Nat.not_lt_zero j)⟩
    · simp only [jsIndexOf, hp, if_neg, Bool.false_eq_true, not_false_iff,
        Option.map_eq_some'] at h
      obtain ⟨k, hm, hk⟩ := h
      subst hk
      obtain ⟨hpre, hmin⟩ := ih k hm
      refine ⟨by simpa [List.drop_succ_cons] using hpre, ?_⟩
      intro j hj
      cases j with
      | zero =>
        simpa [List.isPrefixOf_iff_prefix] using hp
      | succ j' =>
        simpa [List.drop_succ_cons] using hmin j' (by omega)

theorem jsIndexOf_eq_none (pat : Str) :
    ∀ l : Str, jsIndexOf pat l = none → ∀ j, ¬ pat <+: l.drop j := by
  intro l
  induction l with
  | nil =>
    intro h j hpre
    by_cases hp : pat.isPrefixOf ([] : Str)
    · simp [jsIndexOf, hp] at h
    · exact hp (List.isPrefixOf_iff_prefix.2 (by simpa using hpre))
  | cons c t ih =>
    intro h j hpre
    by_cases hp : pat.isPrefixOf (c :: t)
    · simp [jsIndexOf, hp] at h
    · simp only [jsIndexOf, hp, if_neg, Bool.false_eq_true, not_false_iff,
        Option.map_eq_none'] at h
      cases j with
      | zero => exact hp (List.isPrefixOf_iff_prefix.2 (by simpa using hpre))
      | succ j' => exact ih h j' (by simpa [List.drop_succ_cons] using hpre)

theorem jsIndexOf_eq_some_iff {pat l : Str} {i : Nat} :
    jsIndexOf pat l = some i ↔
      (pat <+: l.drop i ∧ ∀ j < i, ¬ pat <+: l.drop j) := by
  constructor
  · exact jsIndexOf_eq_some pat l i
  · rintro ⟨hpre, hmin⟩
    cases hm : jsIndexOf pat l with
    | none => exact absurd hpre (jsIndexOf_eq_none pat l hm i)
    | some k =>
      obtain ⟨hk, hkmin⟩ := jsIndexOf_eq_some pat l k hm
      rcases Nat.lt_trichotomy k i with h | h | h
      · exact absurd hk (hmin k h)
      · rw [h]
      · exact absurd hpre (hkmin i h)

theorem jsIndexOf_eq_none_iff {pat l : Str} :
    jsIndexOf pat l = none ↔ ∀ j, ¬ pat <+: l.drop j := by
  constructor
  · exact jsIndexOf_eq_none pat l
  · intro hall
    cases hm : jsIndexOf pat l with
    | none => rfl
    | some k => exact absurd (jsIndexOf_eq_some pat l k hm).1 (hall k)

/-- An occurrence inside `jsSlice s a b` yields an occurrence in `s`. -/
theorem isPrefix_drop_of_isPrefix_drop_slice {pat s : Str} {a b j : Nat}
    (h : pat <+: (jsSlice s a b).drop j) : pat <+: s.drop (a + j) := by
  unfold jsSlice at h
  rw [List.drop_take] at h
  refine h.trans ?_
  rw [← List.drop_drop]
  exact List.take_prefix _ _

theorem fuzzyFind_eq_some (toks : List Str) :
    ∀ (l : Str) (i n : Nat), fuzzyFind toks l = some (i, n) →
      matchToks toks (l.drop i) = some n ∧
        ∀ j < i, matchToks toks (l.drop j) = none := by
  intro l
  induction l with
  | nil =>
    intro i n h
    simp only [fuzzyFind, Option.map_eq_some'] at h
    obtain ⟨m, hm, hpair⟩ := h
    cases hpair
    exact ⟨by simpa using hm, fun j hj => absurd hj (Nat.not_lt_zero j)⟩
  | cons c t ih =>
    intro i n h
    cases hm : matchToks toks (c :: t) with
    | some m =>
      rw [fuzzyFind, hm] at h
      cases h
      exact ⟨hm, fun j hj => absurd hj (Nat.not_lt_zero j)⟩
    | none =>
      rw [fuzzyFind, hm, Option.map_eq_some'] at h
      obtain ⟨⟨i', n'⟩, hrec, hpair⟩ := h
      cases hpair
      obtain ⟨h1, h2⟩ := ih i' n' hrec
      refine ⟨by simpa [List.drop_succ_cons] using h1, ?_⟩
      intro j hj
      cases j with
      | zero => simpa using hm
      | succ j' => simpa [List.drop_succ_cons] using h2 j' (by omega)

theorem fuzzyFind_eq_none (toks : List Str) :
    ∀ l : Str, fuzzyFind toks l = none → ∀ j, matchToks toks (l.drop j) = none := by
  intro l
  induction l with
  | nil =>
    intro h j
    simp only [fuzzyFind, Option.map_eq_none'] at h
    simpa using h
  | cons c t ih =>
    intro h j
    cases hm : matchToks toks (c :: t) with
    | some m => rw [fuzzyFind, hm] at h; cases h
    | none =>
      rw [fuzzyFind, hm, Option.map_eq_none'] at h
      cases j with
      | zero => simpa using hm
      | succ j' => simpa [List.drop_succ_cons] using ih h j'

theorem fuzzyFind_eq_some_iff {toks : List Str} {l : Str} {i n : Nat} :
    fuzzyFind toks l = some (i, n) ↔
      (matchToks toks (l.drop i) = some n ∧
        ∀ j < i, matchToks toks (l.drop j) = none) := by
  constructor
  · exact fuzzyFind_eq_some toks l i n
  · rintro ⟨hmatch, hmin⟩
    cases hm : fuzzyFind toks l with
    | none => rw [fuzzyFind_eq_none toks l hm i] at hmatch; cases hmatch
    | some p =>
      obtain ⟨k, m⟩ := p
      obtain ⟨hk, hkmin⟩ := fuzzyFind_eq_some toks l k m hm
      rcases Nat.lt_trichotomy k i with h | h | h
      · rw [hmin k h] at hk; cases hk
      · subst h
        rw [hmatch] at hk
        cases hk
        rfl
      · rw [hkmin i h] at hmatch; cases hmatch

/-! ## Claim theorems -/

/-- C1: when the current buffer restricted to `[start, stop)` still
equals the captured original text, the apply is the pure substitution
`content[:start] ++ replacement ++ content[stop:]` and the cursor
lands at `start + replacement.length`. -/
theorem apply_exact_position (doc : Str) (cursor : Nat) (p : Preview)
    (h : jsSlice doc p.start p.stop = p.original) :
    applyPreview doc cursor p =
      (doc.take p.start ++ p.next ++ doc.drop p.stop,
       p.start + p.next.length, .applied) := by
  simp [applyPreview, h]

/-- Witness for C1 at the spec's running example. -/
theorem apply_exact_position_witness :
    jsSlice "A B C D".toList 2 5 = "B C".toList ∧
      applyPreview "A B C D".toList 0 ⟨2, 5, "B C".toList, "X Y".toList⟩ =
        ("A X Y D".toList, 5, .applied) :=
  ⟨by decide,
   (apply_exact_position "A B C D".toList 0
      ⟨2, 5, "B C".toList, "X Y".toList⟩ (by decide)).trans (by decide)⟩

/-- C2: when the exact-position check fails but the original text
occurs literally inside the window
`[start − 2000, min len (start + 2000))`, the apply replaces the first
such occurrence; when the windowed search fails but a global
occurrence exists, it replaces the first occurrence anywhere. -/
theorem apply_windowed_search (doc : Str) (cursor : Nat) (p : Preview)
    (hne : jsSlice doc p.start p.stop ≠ p.original)
    (hnn : p.original ≠ []) :
    (∀ i, p.original <+:
        (jsSlice doc (p.start - 2000) (min doc.length (p.start + 2000))).drop i →
      (∀ j < i, ¬ p.original <+:
        (jsSlice doc (p.start - 2000) (min doc.length (p.start + 2000))).drop j) →
      applyPreview doc cursor p =
        (doc.take (p.start - 2000 + i) ++ p.next ++
           doc.drop (p.start - 2000 + i + p.original.length),
         p.start - 2000 + i + p.next.length, .applied)) ∧
    ((∀ j, ¬ p.original <+:
        (jsSlice doc (p.start - 2000) (min doc.length (p.start + 2000))).drop j) →
      ∀ i, p.original <+: doc.drop i →
        (∀ j < i, ¬ p.original <+: doc.drop j) →
        applyPreview doc cursor p =
          (doc.take i ++ p.next ++ doc.drop (i + p.original.length),
           i + p.next.length, .applied)) := by
  constructor
  · intro i hpre hmin
    have hidx : jsIndexOf p.original
        (jsSlice doc (p.start - 2000) (min doc.length (p.start + 2000))) =
        some i := jsIndexOf_eq_some_iff.2 ⟨hpre, hmin⟩
    simp [applyPreview, hne, findNearestRange, hnn, hidx]
  · intro hwin i hpre hmin
    have hw : jsIndexOf p.original
        (jsSlice doc (p.start - 2000) (min doc.length (p.start + 2000))) =
        none := jsIndexOf_eq_none_iff.2 hwin
    have hidx : jsIndexOf p.original doc = some i :=
      jsIndexOf_eq_some_iff.2 ⟨hpre, hmin⟩
    simp [applyPreview, hne, findNearestRange, hnn, hw, hidx]

/-- Witness for C2: the spec's scenario — content `"A B C D"`, span
`"B C"` captured at 2–5, replacement `"X Y"`, user prepends `"Z "`;
the windowed search finds `"B C"` at 4–7 and yields `"Z A X Y D"`. -/
theorem apply_windowed_search_witness :
    applyPreview "Z A B C D".toList 0 ⟨2, 5, "B C".toList, "X Y".toList⟩ =
      ("Z A X Y D".toList, 7, .applied) :=
  ((apply_windowed_search "Z A B C D".toList 0
      ⟨2, 5, "B C".toList, "X Y".toList⟩ (by decide) (by decide)).1
    4 (by decide) (by decide)).trans (by decide)

/-- C3: when the captured offsets are stale, the original text occurs
nowhere in the current content, and the fuzzy `findAndReplace`
fallback returns false, the apply is rejected as a conflict and the
document and cursor are returned unchanged. -/
theorem apply_all_tiers_fail (doc : Str) (cursor : Nat) (p : Preview)
    (hne : jsSlice doc p.start p.stop ≠ p.original)
    (hnoocc : ∀ j, ¬ p.original <+: doc.drop j)
    (hfuzzy : findAndReplaceCore doc p.original p.next = none) :
    applyPreview doc cursor p = (doc, cursor, .conflict) := by
  have hnr : findNearestRange doc p.original p.start = none := by
    by_cases h0 : p.original = []
    · simp [findNearestRange, h0]
    · have hw : jsIndexOf p.original
          (jsSlice doc (p.start - 2000) (min doc.length (p.start + 2000))) =
          none := jsIndexOf_eq_none_iff.2
        (fun j hpre => hnoocc _ (isPrefix_drop_of_isPrefix_drop_slice hpre))
      have hg : jsIndexOf p.original doc = none :=
        jsIndexOf_eq_none_iff.2 hnoocc
      simp [findNearestRange, h0, hw, hg]
  simp [applyPreview, hne, hnr, hfuzzy]

/-- Witness for C3: no tier can place `"xyz"` in `"hello"`. -/
theorem apply_all_tiers_fail_witness :
    applyPreview "hello".toList 0 ⟨0, 3, "xyz".toList, "w".toList⟩ =
      ("hello".toList, 0, .conflict) :=
  apply_all_tiers_fail "hello".toList 0 ⟨0, 3, "xyz".toList, "w".toList⟩
    (by decide) (jsIndexOf_eq_none _ _ (by decide)) (by decide)

/-- C4 (counterexample to the claim as stated): the empty needle has
an exact-substring occurrence in `"abc"` (the empty list is a prefix
of every suffix), yet `findAndReplace` performs no replacement — the
guard `if (!find) return false` rejects it. -/
theorem findAndReplace_empty_needle_counterexample :
    ([] : Str) <+: "abc".toList.drop 0 ∧
      findAndReplaceCore "abc".toList [] "x".toList = none := by
  constructor
  · exact List.nil_prefix
  · decide

/-- C4 (amended: restricted to non-empty needles; the empty needle is
always rejected with no mutation): `findAndReplace` replaces the first
exact occurrence of the needle when one exists; otherwise, only when
the trimmed needle has at least 16 characters and at least 3
whitespace-separated tokens, it replaces the leftmost match of the
tokens joined by one-or-more-whitespace; in every other case it
returns false, and a false return never mutates the store. -/
theorem findAndReplace_tiers (content find repl : Str) :
    (find = [] → findAndReplaceCore content find repl = none) ∧
    (find ≠ [] →
      (∀ i, find <+: content.drop i →
        (∀ j < i, ¬ find <+: content.drop j) →
        findAndReplaceCore content find repl =
          some (jsReplaceAt content find repl i)) ∧
      ((∀ j, ¬ find <+: content.drop j) →
        16 ≤ (jsTrim find).length →
        3 ≤ (splitWsTokens (jsTrim find)).length →
        (∀ i n,
          matchToks (splitWsTokens (jsTrim find)) (content.drop i) = some n →
          (∀ j < i,
            matchToks (splitWsTokens (jsTrim find)) (content.drop j) = none) →
          findAndReplaceCore content find repl =
            some (content.take i ++ repl ++ content.drop (i + n))) ∧
        ((∀ j,
            matchToks (splitWsTokens (jsTrim find)) (content.drop j) = none) →
          findAndReplaceCore content find repl = none)) ∧
      ((∀ j, ¬ find <+: content.drop j) →
        ((jsTrim find).length < 16 ∨ (splitWsTokens (jsTrim find)).length < 3) →
        findAndReplaceCore content find repl = none)) ∧
    (∀ st, (findAndReplace st find repl).1 = false →
      (findAndReplace st find repl).2 = st) := by
  refine ⟨?_, ?_, ?_⟩
  · intro h
    simp [findAndReplaceCore, h]
  · intro hnn
    refine ⟨?_, ?_, ?_⟩
    · intro i hpre hmin
      have hidx : jsIndexOf find content = some i :=
        jsIndexOf_eq_some_iff.2 ⟨hpre, hmin⟩
      simp [findAndReplaceCore, hnn, hidx]
    · intro hnoocc hlen htoks
      have hidx : jsIndexOf find content = none :=
        jsIndexOf_eq_none_iff.2 hnoocc
      constructor
      · intro i n hmatch hminimal
        have hf : fuzzyFind (splitWsTokens (jsTrim find)) content =
            some (i, n) := fuzzyFind_eq_some_iff.2 ⟨hmatch, hminimal⟩
        simp [findAndReplaceCore, hnn, hidx, hlen, htoks, hf]
      · intro hnomatch
        have hf : fuzzyFind (splitWsTokens (jsTrim find)) content = none := by
          cases hm : fuzzyFind (splitWsTokens (jsTrim find)) content with
          | none => rfl
          | some q =>
            obtain ⟨k, m⟩ := q
            have := (fuzzyFind_eq_some _ _ k m hm).1
            rw [hnomatch k] at this
            cases this
        simp [findAndReplaceCore, hnn, hidx, hlen, htoks, hf]
    · intro hnoocc hsmall
      have hidx : jsIndexOf find content = none :=
        jsIndexOf_eq_none_iff.2 hnoocc
      rcases hsmall with h | h
      · simp [findAndReplaceCore, hnn, hidx, Nat.not_le_of_lt h]
      · by_cases hlen : 16 ≤ (jsTrim find).length
        · simp [findAndReplaceCore, hnn, hidx, hlen, Nat.not_le_of_lt h]
        · simp [findAndReplaceCore, hnn, hidx, hlen]
  · intro st hfalse
    unfold findAndReplace at hfalse ⊢
    cases hg : getActiveFile st with
    | none => simp [hg]
    | some f =>
      by_cases ht : f.type != "tex"
      · simp [hg, ht]
      · cases hc : findAndReplaceCore (f.content.getD []) find repl with
        | none => simp [hg, ht, hc]
        | some nc =>
          rw [hg] at hfalse
          simp [ht, hc] at hfalse

/-- Witness for C4, tier 1: `"world"` occurs first at index 6. -/
theorem findAndReplace_tiers_witness :
    findAndReplaceCore "hello world".toList "world".toList "there".toList =
      some "hello there".toList :=
  ((((findAndReplace_tiers "hello world".toList "world".toList
        "there".toList).2.1 (by decide)).1 6 (by decide) (by decide)).trans
    (by decide))

/-- C5 (counterexample to the claim as stated): a selection consisting
of one space is empty after trimming, and `runTransform` rejects it by
a bare `return` — no `TextTooLong` error is raised (and no preview is
created). -/
theorem transform_empty_selection_counterexample :
    jsTrim " ".toList = [] ∧
      validateTransform " ".toList ≠ .rejectedTooLong ∧
      runTransformStart 0 1 " ".toList = none := by
  decide

/-- C5 (amended: a selection that is empty after trimming is rejected
silently, with no error, no event and no preview; a selection longer
than 4000 characters is rejected with the `TextTooLong` error before
any network call and without any preview being created; a selection of
length at most 4000 that is non-empty after trimming passes
validation). -/
theorem transform_validation (start stop : Nat) (original : Str) :
    (jsTrim original = [] →
      validateTransform original = .rejectedEmptySelection ∧
      runTransformStart start stop original = none) ∧
    (jsTrim original ≠ [] → 4000 < original.length →
      validateTransform original = .rejectedTooLong ∧
      runTransformStart start stop original = none) ∧
    (jsTrim original ≠ [] → original.length ≤ 4000 →
      validateTransform original = .accepted ∧
      runTransformStart start stop original =
        some ⟨start, stop, original, []⟩) := by
  refine ⟨?_, ?_, ?_⟩
  · intro h
    simp [validateTransform, runTransformStart, h]
  · intro h1 h2
    simp [validateTransform, runTransformStart, h1, h2]
  · intro h1 h2
    simp [validateTransform, runTransformStart, h1, Nat.not_lt_of_le h2]

/-- Trimming a run of `'a'`s changes nothing (`'a'` is not
whitespace). -/
theorem dropWhile_isJsWs_replicate_a (n : Nat) :
    List.dropWhile isJsWs (List.replicate n 'a') = List.replicate n 'a' := by
  cases n with
  | zero => rfl
  | succ m =>
    rw [List.replicate_succ]
    exact List.dropWhile_cons_of_neg (by decide)

theorem jsTrim_replicate_a (n : Nat) :
    jsTrim (List.replicate n 'a') = List.replicate n 'a' := by
  unfold jsTrim
  rw [dropWhile_isJsWs_replicate_a, List.reverse_replicate,
    dropWhile_isJsWs_replicate_a, List.reverse_replicate]

theorem replicate_a_ne_nil (n : Nat) :
    List.replicate (n + 1) 'a' ≠ ([] : Str) := by
  intro h
  have hlen := congrArg List.length h
  rw [List.length_replicate, List.length_nil] at hlen
  exact absurd hlen (by omega)

/-- Witness for C5: a 4001-character selection is rejected with the
`TextTooLong` error; a 4000-character one passes validation. -/
theorem transform_validation_witness :
    validateTransform (List.replicate 4001 'a') = .rejectedTooLong ∧
      validateTransform (List.replicate 4000 'a') = .accepted :=
  ⟨((transform_validation 0 4001 (List.replicate 4001 'a')).2.1
      (by rw [jsTrim_replicate_a]; exact replicate_a_ne_nil 4000)
      (by rw [List.length_replicate]; omega)).1,
   ((transform_validation 0 4000 (List.replicate 4000 'a')).2.2
      (by rw [jsTrim_replicate_a]; exact replicate_a_ne_nil 3999)
      (by rw [List.length_replicate])).1⟩

/-- A single `saveHistoryEntry` call keeps the history within the
50-entry cap. -/
theorem saveHistoryEntry_length_le (st : DocumentState) (i : String) (t : Nat)
    (h : st.historyEntries.length ≤ 50) :
    ((saveHistoryEntry st i t).2).historyEntries.length ≤ 50 := by
  unfold saveHistoryEntry
  cases hg : getActiveFile st with
  | none => simpa using h
  | some f =>
    by_cases ht : f.type != "tex"
    · simpa [ht] using h
    · simp only [ht, Bool.false_eq_true, if_false, List.length_take]
      omega

/-- C8: the history buffer never exceeds 50 entries over any sequence
of `saveHistoryEntry` calls; a successful call prepends the snapshot
and truncates to the 50 most recent; a call made while the resolved
active file is missing or not text-bearing returns `null` and leaves
the state unchanged. -/
theorem saveHistory_cap (st : DocumentState) :
    (∀ calls : List (String × Nat), st.historyEntries.length ≤ 50 →
      (saveHistorySeq st calls).historyEntries.length ≤ 50) ∧
    (∀ i t f, getActiveFile st = some f → f.type = "tex" →
      saveHistoryEntry st i t =
        (some i,
         { st with
           historyEntries :=
             (({ id := i, fileId := f.id, createdAt := t,
                 content := f.content.getD [] } : DocumentHistoryEntry) ::
               st.historyEntries).take 50 })) ∧
    (∀ i t f, getActiveFile st = some f → f.type ≠ "tex" →
      saveHistoryEntry st i t = (none, st)) ∧
    (getActiveFile st = none →
      ∀ i t, saveHistoryEntry st i t = (none, st)) := by
  refine ⟨?_, ?_, ?_, ?_⟩
  · intro calls
    induction calls generalizing st with
    | nil => intro h; simpa [saveHistorySeq] using h
    | cons c rest ih =>
      intro h
      have hstep := saveHistoryEntry_length_le st c.1 c.2 h
      simpa [saveHistorySeq, List.foldl_cons] using
        ih ((saveHistoryEntry st c.1 c.2).2) hstep
  · intro i t f hg ht
    simp [saveHistoryEntry, hg, ht]
  · intro i t f hg ht
    simp [saveHistoryEntry, hg, ht]
  · intro hg i t
    simp [saveHistoryEntry, hg]

/-- Witness for C8 at a one-file state with an empty history. -/
theorem saveHistory_cap_witness :
    (saveHistorySeq
        { files := [⟨"f1", "document.tex", "tex", none, some "ab".toList⟩],
          activeFileId := "f1", cursorPosition := 0, selectionRange := none,
          historyEntries := [] }
        [("h1", 5)]).historyEntries.length ≤ 50 :=
  (saveHistory_cap _).1 [("h1", 5)] (by decide)

/-- C9 (counterexample to the claim as stated): `insertAtCursor` does
not clear the selection — the zustand `set` only writes `files` and
`cursorPosition`, so a previously set `selectionRange` survives the
insert. -/
theorem insert_keeps_selection_counterexample :
    (insertAtCursor
        { files := [⟨"f1", "document.tex", "tex", none, some "ab".toList⟩],
          activeFileId := "f1", cursorPosition := 1,
          selectionRange := some (0, 1), historyEntries := [] }
        "x".toList).selectionRange ≠ none := by
  decide

/-- C9 (amended: both primitives advance the cursor to immediately
after the inserted text, but leave `selectionRange` unchanged rather
than clearing it). -/
theorem insert_replace_cursor (st : DocumentState) (text : Str)
    (f : ProjectFile) (hf : getActiveFile st = some f)
    (ht : f.type = "tex") :
    (insertAtCursor st text).cursorPosition =
        st.cursorPosition + text.length ∧
    (insertAtCursor st text).selectionRange = st.selectionRange ∧
    ∀ start stop,
      (replaceSelection st start stop text).cursorPosition =
          start + text.length ∧
      (replaceSelection st start stop text).selectionRange =
          st.selectionRange := by
  refine ⟨?_, ?_, ?_⟩
  · simp [insertAtCursor, hf, ht]
  · simp [insertAtCursor, hf, ht]
  · intro start stop
    constructor
    · simp [replaceSelection, hf, ht]
    · simp [replaceSelection, hf, ht]

/-- Witness for C9's amended claim. -/
theorem insert_replace_cursor_witness :
    (insertAtCursor
        { files := [⟨"f1", "document.tex", "tex", none, some "ab".toList⟩],
          activeFileId := "f1", cursorPosition := 1,
          selectionRange := some (0, 1), historyEntries := [] }
        "x".toList).cursorPosition = 2 ∧
    (replaceSelection
        { files := [⟨"f1", "document.tex", "tex", none, some "ab".toList⟩],
          activeFileId := "f1", cursorPosition := 1,
          selectionRange := some (0, 1), historyEntries := [] }
        0 1 "x".toList).selectionRange = some (0, 1) := by
  have h := insert_replace_cursor
    { files := [⟨"f1", "document.tex", "tex", none, some "ab".toList⟩],
      activeFileId := "f1", cursorPosition := 1,
      selectionRange := some (0, 1), historyEntries := [] }
    "x".toList ⟨"f1", "document.tex", "tex", none, some "ab".toList⟩
    (by decide) rfl
  exact ⟨h.1.trans (by decide), (h.2.2 0 1).2.trans (by decide)⟩

/-- C10: `moveFile` is a no-op whenever the node denoted by the id is
a folder, and (given unique ids) every folder node survives a move
entirely unchanged — only non-folder nodes are ever re-parented. -/
theorem moveFile_folder_noop (st : DocumentState) (id : String)
    (pid : Option String) :
    (∀ target, st.files.find? (fun f => f.id == id) = some target →
      target.type = "folder" → moveFile st id pid = st) ∧
    ((idsOf st.files).Nodup →
      ∀ f ∈ st.files, f.type = "folder" → f ∈ (moveFile st id pid).files) := by
  constructor
  · intro target hfind htype
    simp [moveFile, hfind, htype]
  · intro hnodup f hf htype
    unfold moveFile
    cases hfind : st.files.find? (fun g => g.id == id) with
    | none => exact hf
    | some target =>
      by_cases htt : target.type == "folder"
      · simpa [htt] using hf
      · have htarget_mem : target ∈ st.files :=
          List.mem_of_find?_eq_some hfind
        have htarget_id : target.id = id := by
          have := List.find?_some hfind
          simpa using this
        have hfid : f.id ≠ id := by
          intro heq
          have hinj := List.inj_on_of_nodup_map hnodup
          have : f = target := hinj hf htarget_mem
            (by rw [heq, htarget_id])
          rw [this] at htype
          simp [htype] at htt
        have hmem : f ∈ st.files.map (fun g =>
            if g.id == id then { g with parentId := pid } else g) := by
          have := List.mem_map_of_mem (fun g =>
            if g.id == id then { g with parentId := pid } else g) hf
          simpa [hfid] using this
        simp only [htt, Bool.false_eq_true, if_false]
        split
        · split
          · split
            · exact hmem
            · exact hf
          · exact hf
        · exact hmem

/-- Witness for C10: moving a folder is ignored. -/
theorem moveFile_folder_noop_witness :
    moveFile
        { files := [⟨"f1", "document.tex", "tex", none, some "ab".toList⟩,
                    ⟨"d1", "chapters", "folder", none, none⟩],
          activeFileId := "f1", cursorPosition := 0, selectionRange := none,
          historyEntries := [] } "d1" none =
      { files := [⟨"f1", "document.tex", "tex", none, some "ab".toList⟩,
                  ⟨"d1", "chapters", "folder", none, none⟩],
        activeFileId := "f1", cursorPosition := 0, selectionRange := none,
        historyEntries := [] } :=
  (moveFile_folder_noop _ "d1" none).1
    ⟨"d1", "chapters", "folder", none, none⟩ (by decide) rfl

/-! ## Delete-cascade machinery (C6) -/

theorem contains_iff_mem {s : List String} {x : String} :
    s.contains x = true ↔ x ∈ s := by
  simp [List.contains_iff_exists_mem_beq, beq_iff_eq]

theorem validParentsB_spec {files : List ProjectFile}
    (h : validParentsB files = true) :
    ∀ f ∈ files, ∀ p, f.parentId = some p →
      ∃ g ∈ files, g.id = p ∧ g.type = "folder" := by
  intro f hf p hp
  have hall := List.all_eq_true.1 h f hf
  rw [hp] at hall
  simp only [List.any_eq_true] at hall
  obtain ⟨g, hg, hgc⟩ := hall
  rw [Bool.and_eq_true] at hgc
  exact ⟨g, hg, by simpa using hgc.1, by simpa using hgc.2⟩

theorem id_inj {files : List ProjectFile} (hnodup : (idsOf files).Nodup)
    {f g : ProjectFile} (hf : f ∈ files) (hg : g ∈ files)
    (h : f.id = g.id) : f = g :=
  List.inj_on_of_nodup_map hnodup hf hg h

theorem subset_deleteStep (files : List ProjectFile) (s : List String) :
    ∀ x ∈ s, x ∈ deleteStep files s := by
  intro x hx
  exact List.mem_append_left _ hx

theorem subset_deleteClosureAux (files : List ProjectFile) :
    ∀ (fuel : Nat) (s : List String) (x : String), x ∈ s →
      x ∈ deleteClosureAux files fuel s := by
  intro fuel
  induction fuel with
  | zero => intro s x hx; exact hx
  | succ n ih =>
    intro s x hx
    simp only [deleteClosureAux]
    split
    · exact hx
    · exact ih (deleteStep files s) x (subset_deleteStep files s x hx)

theorem length_filter_mono {α : Type} (l : List α) (p q : α → Bool)
    (himp : ∀ a, p a = true → q a = true) :
    (l.filter p).length ≤ (l.filter q).length := by
  induction l with
  | nil => simp
  | cons b t ih =>
    by_cases hp : p b = true
    · rw [List.filter_cons_of_pos hp, List.filter_cons_of_pos (himp b hp)]
      simpa using ih
    · rw [List.filter_cons_of_neg (by simpa using hp)]
      by_cases hq : q b = true
      · rw [List.filter_cons_of_pos hq]
        exact ih.trans (by simp)
      · rw [List.filter_cons_of_neg (by simpa using hq)]
        exact ih

theorem length_filter_lt {α : Type} (l : List α) (p q : α → Bool)
    (himp : ∀ a, p a = true → q a = true) (a : α) (ha : a ∈ l)
    (haq : q a = true) (hap : p a = false) :
    (l.filter p).length < (l.filter q).length := by
  induction l with
  | nil => cases ha
  | cons b t ih =>
    rcases List.mem_cons.1 ha with hb | hat
    · subst hb
      rw [List.filter_cons_of_neg (by simp [hap]), List.filter_cons_of_pos haq]
      exact Nat.lt_succ_of_le (length_filter_mono t p q himp)
    · by_cases hp : p b = true
      · rw [List.filter_cons_of_pos hp, List.filter_cons_of_pos (himp b hp)]
        simpa using ih hat
      · rw [List.filter_cons_of_neg (by simpa using hp)]
        by_cases hq : q b = true
        · rw [List.filter_cons_of_pos hq]
          exact (ih hat).trans (by simp)
        · rw [List.filter_cons_of_neg (by simpa using hq)]
          exact ih hat

theorem deleteStep_eq_self_of_filter_nil {files : List ProjectFile}
    {s : List String}
    (h : files.filter (fun f => !s.contains f.id) = []) :
    deleteStep files s = s := by
  unfold deleteStep
  have hnil : files.filter (fun f =>
      !s.contains f.id &&
      (match f.parentId with
       | some p => s.contains p && folderIdIn files p
       | none => false)) = [] := by
    rw [List.filter_eq_nil_iff] at h ⊢
    intro f hf
    have := h f hf
    simp only [Bool.and_eq_true, not_and]
    intro hc
    exact absurd hc (by simpa using this)
  rw [hnil]
  simp

theorem deleteClosureAux_fixpoint (files : List ProjectFile) :
    ∀ (fuel : Nat) (s : List String),
      (files.filter (fun f => !s.contains f.id)).length ≤ fuel →
      deleteStep files (deleteClosureAux files fuel s) =
        deleteClosureAux files fuel s := by
  intro fuel
  induction fuel with
  | zero =>
    intro s hcount
    have hnil : files.filter (fun f => !s.contains f.id) = [] :=
      List.length_eq_zero.1 (Nat.le_zero.1 hcount)
    simp only [deleteClosureAux]
    exact deleteStep_eq_self_of_filter_nil hnil
  | succ n ih =>
    intro s hcount
    simp only [deleteClosureAux]
    by_cases heq : deleteStep files s = s
    · rw [if_pos heq]
      exact heq
    · rw [if_neg heq]
      apply ih
      -- the step strictly extended `s`, so the count of uncollected
      -- files decreased
      have hne : files.filter (fun f =>
          !s.contains f.id &&
          (match f.parentId with
           | some p => s.contains p && folderIdIn files p
           | none => false)) ≠ [] := by
        intro hnil
        apply heq
        unfold deleteStep
        rw [hnil]
        simp
      obtain ⟨f0, hf0⟩ := List.exists_mem_of_ne_nil _ hne
      have hf0' := List.mem_filter.1 hf0
      have hf0files : f0 ∈ files := hf0'.1
      have hf0notin : s.contains f0.id = false := by
        have := hf0'.2
        rw [Bool.and_eq_true] at this
        simpa using this.1
      have hf0in : f0.id ∈ deleteStep files s := by
        unfold deleteStep
        exact List.mem_append_right _ (List.mem_map_of_mem _ hf0)
      have hlt : (files.filter (fun f =>
          !(deleteStep files s).contains f.id)).length <
          (files.filter (fun f => !s.contains f.id)).length := by
        apply length_filter_lt files _ _ ?_ f0 hf0files
        · simp only [Bool.not_eq_true']
          exact hf0notin
        · simp only [Bool.not_eq_false']
          exact contains_iff_mem.2 hf0in
        · intro a ha
          simp only [Bool.not_eq_true'] at ha ⊢
          rcases hc : s.contains a.id with _ | _
          · rfl
          · exfalso
            have hmem : a.id ∈ deleteStep files s :=
              subset_deleteStep files s a.id (contains_iff_mem.1 hc)
            rw [contains_iff_mem.2 hmem] at ha
            exact Bool.noConfusion ha
      omega

theorem mem_of_step_fixpoint {files : List ProjectFile} {s : List String}
    (hfix : deleteStep files s = s) {f : ProjectFile} (hf : f ∈ files)
    {p : String} (hp : f.parentId = some p) (hps : p ∈ s)
    (hfolder : folderIdIn files p = true) : f.id ∈ s := by
  by_cases hin : f.id ∈ s
  · exact hin
  · have hcf : s.contains f.id = false := by
      rcases hc : s.contains f.id with _ | _
      · rfl
      · exact absurd (contains_iff_mem.1 hc) hin
    have hcond : (!s.contains f.id &&
        (match f.parentId with
         | some q => s.contains q && folderIdIn files q
         | none => false)) = true := by
      rw [hp]
      simp only [Bool.and_eq_true, Bool.not_eq_true']
      exact ⟨hcf, contains_iff_mem.2 hps, hfolder⟩
    have hmem : f.id ∈ deleteStep files s := by
      unfold deleteStep
      exact List.mem_append_right _
        (List.mem_map_of_mem _ (List.mem_filter.2 ⟨hf, hcond⟩))
    rwa [hfix] at hmem

theorem anc_mem_deleteSet (files : List ProjectFile) (target : ProjectFile)
    (hmem : target ∈ files) (hnodup : (idsOf files).Nodup)
    (hvalid : validParentsB files = true) :
    ∀ d, Anc files target.id d → d ∈ deleteSet files target := by
  intro d hanc
  induction hanc with
  | base hf hp =>
    rename_i f
    by_cases htf : (target.type == "folder") = true
    · have hfix := deleteClosureAux_fixpoint files files.length [target.id]
        (List.length_filter_le _ _)
      have hroot : target.id ∈ deleteClosureAux files files.length [target.id] :=
        subset_deleteClosureAux files files.length [target.id] target.id
          (by simp)
      have hfolder : folderIdIn files target.id = true :=
        List.any_eq_true.2 ⟨target, hmem, by simp [htf]⟩
      unfold deleteSet
      rw [if_pos htf]
      exact mem_of_step_fixpoint hfix hf hp hroot hfolder
    · obtain ⟨g, hg, hgid, hgty⟩ := validParentsB_spec hvalid f hf _ hp
      have hgt : g = target := id_inj hnodup hg hmem (by rw [hgid])
      rw [hgt] at hgty
      exact absurd (by simp [hgty]) htf
  | step hf hp hsub ih =>
    rename_i f p
    obtain ⟨g, hg, hgid, hgty⟩ := validParentsB_spec hvalid f hf _ hp
    by_cases htf : (target.type == "folder") = true
    · have hfix := deleteClosureAux_fixpoint files files.length [target.id]
        (List.length_filter_le _ _)
      have hfolder : folderIdIn files p = true :=
        List.any_eq_true.2 ⟨g, hg, by simp [hgid, hgty]⟩
      have hpin : p ∈ deleteClosureAux files files.length [target.id] := by
        have h := ih
        unfold deleteSet at h
        rwa [if_pos htf] at h
      unfold deleteSet
      rw [if_pos htf]
      exact mem_of_step_fixpoint hfix hf hp hpin hfolder
    · have hpin := ih
      unfold deleteSet at hpin
      rw [if_neg htf] at hpin
      have hpt : p = target.id := by simpa using hpin
      have hgt : g = target := id_inj hnodup hg hmem (by rw [hgid, hpt])
      rw [hgt] at hgty
      exact absurd (by simp [hgty]) htf

/-- The two possible outcomes of `deleteFile`: a rejected no-op, or a
commit that filters out exactly the collected id set. -/
theorem deleteFile_files_eq (st : DocumentState) (id : String) :
    deleteFile st id = st ∨
    (∃ target, st.files.find? (fun f => f.id == id) = some target ∧
      (deleteFile st id).files =
        st.files.filter
          (fun f => !(deleteSet st.files target).contains f.id)) := by
  cases hfind : st.files.find? (fun f => f.id == id) with
  | none => left; simp only [deleteFile, hfind]
  | some target =>
    cases hrem : (st.files.filter
        (fun f => !(deleteSet st.files target).contains f.id)).filter
          (fun f => f.type != "folder") with
    | nil =>
      left
      simp only [deleteFile, hfind]
      rw [hrem]
    | cons g rest =>
      right
      refine ⟨target, rfl, ?_⟩
      simp only [deleteFile, hfind]
      rw [hrem]

/-- C6: on a tree with unique ids and valid parent references,
`deleteFile` (1) never leaves a remaining node whose `parentId`
references a deleted id — every remaining parent reference still
resolves to a folder in the tree; (2) when it commits, it removes the
node and every transitive descendant; and (3) it is rejected as a
no-op whenever it would remove the last non-folder node. -/
theorem deleteFile_cascade (st : DocumentState) (id : String)
    (hnodup : (idsOf st.files).Nodup)
    (hvalid : validParentsB st.files = true) :
    (∀ f ∈ (deleteFile st id).files, ∀ p, f.parentId = some p →
      ∃ g ∈ (deleteFile st id).files, g.id = p ∧ g.type = "folder") ∧
    (deleteFile st id ≠ st →
      id ∉ idsOf (deleteFile st id).files ∧
      ∀ d, Anc st.files id d → d ∉ idsOf (deleteFile st id).files) ∧
    (∀ target, st.files.find? (fun f => f.id == id) = some target →
      (st.files.filter (fun f =>
          !(deleteSet st.files target).contains f.id)).filter
        (fun f => f.type != "folder") = [] →
      deleteFile st id = st) := by
  refine ⟨?_, ?_, ?_⟩
  · -- no orphaned parent references
    rcases deleteFile_files_eq st id with heq | ⟨target, hfind, hfiles⟩
    · rw [heq]
      exact validParentsB_spec hvalid
    · have htmem := List.mem_of_find?_eq_some hfind
      have htid : target.id = id := by simpa using List.find?_some hfind
      intro f hf p hp
      rw [hfiles] at hf
      obtain ⟨hffiles, hfcond⟩ := List.mem_filter.1 hf
      obtain ⟨g, hg, hgid, hgty⟩ := validParentsB_spec hvalid f hffiles p hp
      have hfnotin : f.id ∉ deleteSet st.files target := by
        intro hmem
        rw [Bool.not_eq_true', ← Bool.not_eq_true] at hfcond
        exact absurd (contains_iff_mem.2 hmem) (by simpa using hfcond)
      have hpnotin : p ∉ deleteSet st.files target := by
        intro hps
        by_cases htf : (target.type == "folder") = true
        · have hfix := deleteClosureAux_fixpoint st.files st.files.length
            [target.id] (List.length_filter_le _ _)
          have hfolder : folderIdIn st.files p = true :=
            List.any_eq_true.2 ⟨g, hg, by simp [hgid, hgty]⟩
          have hpin : p ∈ deleteClosureAux st.files st.files.length
              [target.id] := by
            have h := hps
            unfold deleteSet at h
            rwa [if_pos htf] at h
          have : f.id ∈ deleteSet st.files target := by
            unfold deleteSet
            rw [if_pos htf]
            exact mem_of_step_fixpoint hfix hffiles hp hpin hfolder
          exact hfnotin this
        · have h := hps
          unfold deleteSet at h
          rw [if_neg htf] at h
          have hpt : p = target.id := by simpa using h
          have hgt : g = target := id_inj hnodup hg htmem (by rw [hgid, hpt])
          rw [hgt] at hgty
          exact absurd (by simp [hgty]) htf
      refine ⟨g, ?_, hgid, hgty⟩
      rw [hfiles]
      refine List.mem_filter.2 ⟨hg, ?_⟩
      simp only [Bool.not_eq_true']
      rcases hc : (deleteSet st.files target).contains g.id with _ | _
      · rfl
      · exact absurd (contains_iff_mem.1 hc) (hgid ▸ hpnotin)
  · -- committed deletes remove the node and all its descendants
    intro hne
    rcases deleteFile_files_eq st id with heq | ⟨target, hfind, hfiles⟩
    · exact absurd heq hne
    · have htmem := List.mem_of_find?_eq_some hfind
      have htid : target.id = id := by simpa using List.find?_some hfind
      have hnotin : ∀ d, d ∈ deleteSet st.files target →
          d ∉ idsOf (deleteFile st id).files := by
        intro d hd hmem
        rw [hfiles] at hmem
        unfold idsOf at hmem
        obtain ⟨f, hf, hfid⟩ := List.mem_map.1 hmem
        obtain ⟨_, hfcond⟩ := List.mem_filter.1 hf
        rw [Bool.not_eq_true'] at hfcond
        rw [← hfid] at hd
        rw [contains_iff_mem.2 hd] at hfcond
        exact Bool.noConfusion hfcond
      have hid_in : id ∈ deleteSet st.files target := by
        unfold deleteSet
        by_cases htf : (target.type == "folder") = true
        · rw [if_pos htf, ← htid]
          exact subset_deleteClosureAux st.files st.files.length [target.id]
            target.id (by simp)
        · rw [if_neg htf, ← htid]
          simp
      refine ⟨hnotin id hid_in, ?_⟩
      intro d hanc
      exact hnotin d
        (anc_mem_deleteSet st.files target htmem hnodup hvalid d
          (htid ▸ hanc))
  · -- rejected when no non-folder file would survive
    intro target hfind hrem
    simp only [deleteFile, hfind]
    rw [hrem]

/-- Witness for C6: deleting folder `"d1"` removes it together with
its child `"a1"`; the root file `"f1"` keeps the tree non-empty. -/
theorem deleteFile_cascade_witness :
    "d1" ∉ idsOf (deleteFile
      { files := [⟨"f1", "document.tex", "tex", none, some "ab".toList⟩,
                  ⟨"d1", "chapters", "folder", none, none⟩,
                  ⟨"a1", "a.tex", "tex", some "d1", some []⟩],
        activeFileId := "f1", cursorPosition := 0, selectionRange := none,
        historyEntries := [] } "d1").files :=
  ((deleteFile_cascade
      { files := [⟨"f1", "document.tex", "tex", none, some "ab".toList⟩,
                  ⟨"d1", "chapters", "folder", none, none⟩,
                  ⟨"a1", "a.tex", "tex", some "d1", some []⟩],
        activeFileId := "f1", cursorPosition := 0, selectionRange := none,
        historyEntries := [] } "d1" (by decide) (by decide)).2.1
    (by decide)).1

/-! ## Add/move invariant preservation (C7) -/

/-- A tree in which no node has a parent is acyclic. -/
theorem acyclic_of_no_parents {files : List ProjectFile}
    (h : ∀ f ∈ files, f.parentId = none) : Acyclic files := by
  intro x hx
  cases hx with
  | base hf hp => rw [h _ hf] at hp; cases hp
  | step hf hp _ => rw [h _ hf] at hp; cases hp

/-- If no edge of the parent graph points at `t`, then `t` is nobody's
ancestor. -/
theorem anc_no_incoming {files : List ProjectFile} {t : String}
    (hno : ∀ f ∈ files, f.parentId ≠ some t) {a b : String}
    (h : Anc files a b) : a ≠ t := by
  induction h with
  | base hf hp => exact fun heq => hno _ hf (heq ▸ hp)
  | step hf hp hsub ih => exact ih

/-- Ancestor chains that do not end at `t` transfer to a tree with the
same edges away from `t`, provided no edge points at `t`. -/
theorem anc_transfer {files files' : List ProjectFile} {t : String}
    (hedges : ∀ f ∈ files', f.id ≠ t →
      ∃ g ∈ files, g.id = f.id ∧ g.parentId = f.parentId)
    (hno : ∀ f ∈ files', f.parentId ≠ some t) {a b : String}
    (h : Anc files' a b) (hbt : b ≠ t) : Anc files a b := by
  induction h with
  | base hf hp =>
    obtain ⟨g, hg, hgid, hgp⟩ := hedges _ hf hbt
    have : Anc files a g.id := Anc.base hg (by rw [hgp, hp])
    rwa [hgid] at this
  | step hf hp hsub ih =>
    rename_i f p
    obtain ⟨g, hg, hgid, hgp⟩ := hedges _ hf hbt
    have hpt : p ≠ t := fun heq => hno _ hf (by rw [hp, heq])
    have : Anc files a g.id := Anc.step hg (by rw [hgp, hp]) (ih hpt)
    rwa [hgid] at this

/-- Acyclicity transfers along `anc_transfer`'s conditions. -/
theorem acyclic_transfer {files files' : List ProjectFile} {t : String}
    (hedges : ∀ f ∈ files', f.id ≠ t →
      ∃ g ∈ files, g.id = f.id ∧ g.parentId = f.parentId)
    (hno : ∀ f ∈ files', f.parentId ≠ some t)
    (hacyc : Acyclic files) : Acyclic files' := by
  intro x hx
  by_cases hxt : x = t
  · exact anc_no_incoming hno hx hxt
  · exact hacyc x (anc_transfer hedges hno hx hxt)

/-- Appending a node with a fresh id and a parent reference to an
existing folder (or no parent) preserves the tree invariant. -/
theorem addNode_preserves (files : List ProjectFile) (n : ProjectFile)
    (hinv : TreeInvariant files) (hfresh : n.id ∉ idsOf files)
    (hparent : n.parentId = none ∨
      ∃ g ∈ files, n.parentId = some g.id ∧ g.type = "folder") :
    TreeInvariant (files ++ [n]) := by
  obtain ⟨hnodup, hvalid, hacyc⟩ := hinv
  have hno : ∀ f ∈ files ++ [n], f.parentId ≠ some n.id := by
    intro f hf heq
    rcases List.mem_append.1 hf with hfo | hfn
    · obtain ⟨g, hg, hgid, _⟩ := validParentsB_spec hvalid f hfo _ heq
      exact hfresh (hgid ▸ List.mem_map_of_mem (·.id) hg)
    · have hfn' : f = n := by simpa using hfn
      subst hfn'
      rcases hparent with hnone | ⟨g, hg, hgp, _⟩
      · rw [hnone] at heq; cases heq
      · rw [hgp] at heq
        have : g.id = f.id := by simpa using heq
        exact hfresh (this ▸ List.mem_map_of_mem (·.id) hg)
  refine ⟨?_, ?_, ?_⟩
  · unfold idsOf
    rw [List.map_append]
    rw [List.nodup_append]
    refine ⟨hnodup, by simp, ?_⟩
    intro x hx hx'
    have : x = n.id := by simpa using hx'
    exact hfresh (this ▸ hx)
  · unfold validParentsB at hvalid ⊢
    rw [List.all_eq_true] at hvalid ⊢
    intro f hf
    rcases List.mem_append.1 hf with hfo | hfn
    · have h := hvalid f hfo
      cases hp : f.parentId with
      | none => simp
      | some p =>
        rw [hp] at h
        obtain ⟨g, hg, hgc⟩ := List.any_eq_true.1 h
        exact List.any_eq_true.2 ⟨g, List.mem_append_left _ hg, hgc⟩
    · have hfn' : f = n := by simpa using hfn
      subst hfn'
      rcases hparent with hnone | ⟨g, hg, hgp, hgty⟩
      · rw [hnone]
      · rw [hgp]
        exact List.any_eq_true.2 ⟨g, List.mem_append_left _ hg,
          by simp [hgty]⟩
  · refine acyclic_transfer (t := n.id) ?_ hno hacyc
    intro f hf hfid
    rcases List.mem_append.1 hf with hfo | hfn
    · exact ⟨f, hfo, rfl, rfl⟩
    · have : f = n := by simpa using hfn
      exact absurd (this ▸ rfl) hfid

/-- Re-parenting a non-folder node to `none` or to an existing folder
preserves the tree invariant. -/
theorem reparent_preserves (files : List ProjectFile) (id : String)
    (target : ProjectFile) (pid : Option String)
    (hinv : TreeInvariant files)
    (hfind : files.find? (fun f => f.id == id) = some target)
    (htype : (target.type == "folder") = false)
    (hpid_ok : pid = none ∨
      ∃ parent ∈ files, pid = some parent.id ∧ parent.type = "folder") :
    TreeInvariant (files.map (fun f =>
      if f.id == id then { f with parentId := pid } else f)) := by
  obtain ⟨hnodup, hvalid, hacyc⟩ := hinv
  have hmem := List.mem_of_find?_eq_some hfind
  have hid : target.id = id := by simpa using List.find?_some hfind
  have hid_pres : ∀ f : ProjectFile,
      ((if f.id == id then { f with parentId := pid } else f) :
        ProjectFile).id = f.id := by
    intro f
    by_cases hf : (f.id == id) = true
    · rw [if_pos hf]
    · rw [if_neg (by simp [hf])]
  have htype_pres : ∀ f : ProjectFile,
      ((if f.id == id then { f with parentId := pid } else f) :
        ProjectFile).type = f.type := by
    intro f
    by_cases hf : (f.id == id) = true
    · rw [if_pos hf]
    · rw [if_neg (by simp [hf])]
  have htarget_not_parent : ∀ g ∈ files, g.parentId ≠ some id := by
    intro g hg heq
    obtain ⟨g0, hg0, hg0id, hg0ty⟩ := validParentsB_spec hvalid g hg _ heq
    have : g0 = target := id_inj hnodup hg0 hmem (by rw [hg0id, hid])
    rw [this] at hg0ty
    rw [hg0ty] at htype
    simp at htype
  have hpid_ne : pid ≠ some id := by
    rcases hpid_ok with hnone | ⟨parent, hp, hpeq, hpty⟩
    · rw [hnone]; exact fun h => Option.noConfusion h
    · rw [hpeq]
      intro h
      have hpid' : parent.id = id := by simpa using h
      have : parent = target := id_inj hnodup hp hmem (by rw [hpid', hid])
      rw [this] at hpty
      rw [hpty] at htype
      simp at htype
  have hids : idsOf (files.map (fun f =>
      if f.id == id then { f with parentId := pid } else f)) =
      idsOf files := by
    unfold idsOf
    rw [List.map_map]
    exact List.map_congr_left (fun f _ => hid_pres f)
  refine ⟨?_, ?_, ?_⟩
  · rw [hids]; exact hnodup
  · unfold validParentsB at hvalid ⊢
    rw [List.all_eq_true] at hvalid ⊢
    intro f' hf'
    obtain ⟨g, hg, hgf⟩ := List.mem_map.1 hf'
    subst hgf
    by_cases hgid : (g.id == id) = true
    · rw [if_pos hgid]
      rcases hpid_ok with hnone | ⟨parent, hp, hpeq, hpty⟩
      · rw [hnone]
      · rw [hpeq]
        refine List.any_eq_true.2 ⟨_, List.mem_map_of_mem _ hp, ?_⟩
        by_cases hpp : (parent.id == id) = true
        · rw [if_pos hpp]
          simp [hpty]
        · rw [if_neg (by simp [hpp])]
          simp [hpty]
    · rw [if_neg (by simp [hgid])]
      have h := hvalid g hg
      cases hp : g.parentId with
      | none => simp
      | some p =>
        rw [hp] at h
        obtain ⟨g0, hg0, hg0c⟩ := List.any_eq_true.1 h
        rw [Bool.and_eq_true] at hg0c
        refine List.any_eq_true.2 ⟨(if g0.id == id then
          { g0 with parentId := pid } else g0), List.mem_map_of_mem _ hg0, ?_⟩
        rw [Bool.and_eq_true]
        exact ⟨by rw [hid_pres g0]; exact hg0c.1,
          by rw [htype_pres g0]; exact hg0c.2⟩
  · refine acyclic_transfer (t := id) ?_ ?_ hacyc
    · intro f' hf' hfid
      obtain ⟨g, hg, hgf⟩ := List.mem_map.1 hf'
      by_cases hgid : (g.id == id) = true
      · exfalso
        apply hfid
        rw [← hgf, hid_pres g]
        simpa using hgid
      · rw [← hgf, if_neg (by simp [hgid])]
        exact ⟨g, hg, rfl, rfl⟩
    · intro f' hf'
      obtain ⟨g, hg, hgf⟩ := List.mem_map.1 hf'
      by_cases hgid : (g.id == id) = true
      · rw [← hgf, if_pos hgid]
        exact hpid_ne
      · rw [← hgf, if_neg (by simp [hgid])]
        exact htarget_not_parent g hg

/-- The possible outcomes of `moveFile` when the new parent id is not
the (JS-falsy) empty string: a no-op, or a commit re-parenting the
non-folder target to `none` or to a validated existing folder. -/
theorem moveFile_cases (st : DocumentState) (id : String) (pid : Option String)
    (hpid : pid ≠ some "") :
    moveFile st id pid = st ∨
    (∃ target, st.files.find? (fun f => f.id == id) = some target ∧
      (target.type == "folder") = false ∧
      (pid = none ∨
        ∃ parent ∈ st.files, pid = some parent.id ∧ parent.type = "folder") ∧
      (moveFile st id pid).files =
        st.files.map (fun f =>
          if f.id == id then { f with parentId := pid } else f)) := by
  cases hfind : st.files.find? (fun f => f.id == id) with
  | none => left; simp only [moveFile, hfind]
  | some target =>
    by_cases htf : (target.type == "folder") = true
    · left
      simp only [moveFile, hfind]
      rw [if_pos htf]
    · have htf' : (target.type == "folder") = false := by
        simpa using htf
      cases pid with
      | none =>
        right
        refine ⟨target, rfl, htf', Or.inl rfl, ?_⟩
        simp only [moveFile, hfind, htf', jsTruthyId, Bool.false_eq_true,
          if_false, if_true]
      | some s =>
        have hs : (s != "") = true := by
          simp only [bne_iff_ne, ne_eq]
          intro h
          exact hpid (by rw [h])
        cases hpf : st.files.find? (fun f => some f.id == some s) with
        | none =>
          left
          simp only [moveFile, hfind, htf', jsTruthyId, hs, hpf,
            Bool.false_eq_true, if_false, if_true]
        | some parent =>
          have hpmem := List.mem_of_find?_eq_some hpf
          have hpids : some s = some parent.id := by
            have h := List.find?_some hpf
            have h' : some parent.id = some s := by simpa using h
            exact h'.symm
          by_cases hpt : (parent.type == "folder") = true
          · right
            refine ⟨target, rfl, htf',
              Or.inr ⟨parent, hpmem, hpids, by simpa using hpt⟩, ?_⟩
            simp only [moveFile, hfind, htf', jsTruthyId, hs, hpf, hpt,
              Bool.false_eq_true, if_false, if_true]
          · left
            have hpt' : (parent.type == "folder") = false := by simpa using hpt
            simp only [moveFile, hfind, htf', jsTruthyId, hs, hpf, hpt',
              Bool.false_eq_true, if_false, if_true]

/-- Well-formedness of a tree operation's arguments: adds carry a
fresh id and a parent reference that is null or an existing folder;
moves do not pass the JS-falsy empty-string parent id. -/
def OpWf (st : DocumentState) : TreeOp → Prop
  | .addFileOp newId file =>
      newId ∉ idsOf st.files ∧
      (file.parentId = none ∨
        ∃ g ∈ st.files, file.parentId = some g.id ∧ g.type = "folder")
  | .addFolderOp newId _ parentId =>
      newId ∉ idsOf st.files ∧
      (parentId = none ∨
        ∃ g ∈ st.files, parentId = some g.id ∧ g.type = "folder")
  | .moveFileOp _ parentId => parentId ≠ some ""

/-- Well-formedness of a sequence of operations, each in the state it
is applied in. -/
inductive OpsWf : DocumentState → List TreeOp → Prop
  | nil (st : DocumentState) : OpsWf st []
  | cons {st : DocumentState} {op : TreeOp} {ops : List TreeOp} :
      OpWf st op → OpsWf (applyTreeOp st op) ops → OpsWf st (op :: ops)

/-- A single well-formed operation preserves the tree invariant. -/
theorem applyTreeOp_preserves (st : DocumentState) (op : TreeOp)
    (hinv : TreeInvariant st.files) (hwf : OpWf st op) :
    TreeInvariant (applyTreeOp st op).files := by
  cases op with
  | addFileOp newId file =>
    exact addNode_preserves st.files _ hinv hwf.1 hwf.2
  | addFolderOp newId name parentId =>
    exact addNode_preserves st.files _ hinv hwf.1 hwf.2
  | moveFileOp id parentId =>
    show TreeInvariant (moveFile st id parentId).files
    rcases moveFile_cases st id parentId hwf with heq |
      ⟨target, hfind, htf, hpok, hfiles⟩
    · rw [heq]; exact hinv
    · rw [hfiles]
      exact reparent_preserves st.files id target parentId hinv hfind htf hpok

/-- C7 (amended: provided every add supplies a fresh id and a parent
reference that is null or an existing folder, and every move supplies
a parent id that is not the empty string): any sequence of add and
move operations preserves the tree invariant — unique ids, every
non-null `parentId` referencing an existing folder, and acyclicity of
the parent graph. -/
theorem tree_invariant_preserved (st : DocumentState) (ops : List TreeOp)
    (hinv : TreeInvariant st.files) (hwf : OpsWf st ops) :
    TreeInvariant (applyTreeOps st ops).files := by
  induction ops generalizing st with
  | nil => exact hinv
  | cons op rest ih =>
    cases hwf with
    | cons h1 h2 =>
      exact ih (applyTreeOp st op) (applyTreeOp_preserves st op hinv h1) h2

/-- C7 (counterexample to the claim as stated): starting from a valid
one-file tree, `addFolder` with a parent id that references no
existing node is accepted unchecked — the source performs no
validation on add — and produces a tree whose parent references are no
longer valid. -/
theorem tree_add_dangling_counterexample :
    TreeInvariant [⟨"f1", "document.tex", "tex", none, some []⟩] ∧
      validParentsB (applyTreeOps
        { files := [⟨"f1", "document.tex", "tex", none, some []⟩],
          activeFileId := "f1", cursorPosition := 0, selectionRange := none,
          historyEntries := [] }
        [.addFolderOp "d9" "x" (some "bogus")]).files = false :=
  ⟨⟨by decide, by decide, acyclic_of_no_parents (by decide)⟩, by decide⟩

/-- Witness for C7's amended claim: add a folder, then move the
document into it. -/
theorem tree_invariant_preserved_witness :
    TreeInvariant (applyTreeOps
      { files := [⟨"f1", "document.tex", "tex", none, some []⟩],
        activeFileId := "f1", cursorPosition := 0, selectionRange := none,
        historyEntries := [] }
      [.addFolderOp "d2" "ch" none, .moveFileOp "f1" (some "d2")]).files := by
  apply tree_invariant_preserved
  · exact ⟨by decide, by decide, acyclic_of_no_parents (by decide)⟩
  · refine OpsWf.cons ?_ (OpsWf.cons ?_ (OpsWf.nil _))
    · exact ⟨by decide, Or.inl rfl⟩
    · show (some "d2" : Option String) ≠ some ""
      decide

end LatexAssistant
